import Mathlib

/-!
Verification of the per-shard LSM storage engine of dbeel
(src/lsm_tree.rs) and of the client-side consistent-hash ring placement
(dbeel_client/src/lib.rs), against the natural-language specification.

The Rust code is shallowly embedded: byte strings are lists of naturals,
machine integers are naturals with explicit wrap-around (mod 2^64) where
the source performs unsigned arithmetic that can underflow, fallible
operations return Except, and each Lean definition mirrors one Rust item
of the source.
-/

set_option autoImplicit false

namespace Dbeel

/-- Byte strings (Rust Vec<u8> / RcBytes); compared lexicographically. -/
abbrev Bytes := List Nat

/-- PAGE_SIZE from page_cache.rs: fixed page unit for WAL padding. -/
def PAGE_SIZE : Nat := 4096

/-- TREE_CAPACITY from lsm_tree.rs: hard memtable capacity. -/
def TREE_CAPACITY : Nat := 4096

/-- Value 2^64, the modulus of Rust u64 arithmetic. -/
def U64 : Nat := 2 ^ 64

/-- TOMBSTONE from lsm_tree.rs: the empty byte string marks a delete. -/
def TOMBSTONE : Bytes := []

/-- Rust u64 wrapping subtraction of one, as used by the release-mode
unsigned computation hind = index_offset_length - 1 in binary_search. -/
def u64sub1 (n : Nat) : Nat := (n + U64 - 1) % U64

/-- Total-order comparison on naturals (Rust Ord for integers). -/
def natCmp (a b : Nat) : Ordering :=
  if a < b then .lt else if a = b then .eq else .gt

/-- Lexicographic comparison of byte strings (Rust Ord for Vec<u8>):
elementwise comparison first, a strict prefix is smaller. -/
def bytesCmp : Bytes → Bytes → Ordering
  | [], [] => .eq
  | [], _ :: _ => .lt
  | _ :: _, [] => .gt
  | a :: as, b :: bs => (natCmp a b).then (bytesCmp as bs)

/-- EntryValue from lsm_tree.rs: value bytes plus write timestamp
(OffsetDateTime serialized as i64 nanoseconds; wall-clock timestamps are
nonnegative, so modelled as Nat). -/
structure EntryValue where
  data : Bytes
  timestamp : Nat
deriving DecidableEq, Repr

/-- Entry from lsm_tree.rs: a key together with its EntryValue. -/
structure Entry where
  key : Bytes
  value : EntryValue
deriving DecidableEq, Repr

/-- Ord for Entry (lsm_tree.rs impl Ord for Entry): by key, then by
timestamp. -/
def entryCmp (a b : Entry) : Ordering :=
  (bytesCmp a.key b.key).then (natCmp a.value.timestamp b.value.timestamp)

/-- CompactionItem from lsm_tree.rs: a merge-heap element, an entry tagged
with the slot index of the source SSTable reader it came from. -/
structure CompactionItem where
  entry : Entry
  index : Nat
deriving DecidableEq, Repr

/-- Ord for CompactionItem (lsm_tree.rs impl Ord for CompactionItem):
other.entry.cmp(&self.entry).then(other.index.cmp(&self.index)).
BinaryHeap::pop removes a maximal element of this order, so
compactionItemCmp a b = .gt means a is popped before b. -/
def compactionItemCmp (a b : CompactionItem) : Ordering :=
  (entryCmp b.entry a.entry).then (natCmp b.index a.index)

/-! ### Memtable

The memtable is a RedBlackTree (external redblacktree crate) from keys to
EntryValue, embedded as a key-sorted association list. Per spec section
4.4, set replaces the value of an existing key and errors when inserting
a new key would exceed the fixed capacity; iteration is in ascending key
order. -/

/-- Memtable: ordered association list from key to EntryValue. -/
abbrev MemTable := List (Bytes × EntryValue)

/-- Memtable lookup. -/
def mtGet : MemTable → Bytes → Option EntryValue
  | [], _ => none
  | (k', v') :: rest, k => if k = k' then some v' else mtGet rest k

/-- Ordered insert-or-replace into the memtable. -/
def mtInsert : MemTable → Bytes → EntryValue → MemTable
  | [], k, v => [(k, v)]
  | (k', v') :: rest, k, v =>
    match bytesCmp k k' with
    | .lt => (k, v) :: (k', v') :: rest
    | .eq => (k, v) :: rest
    | .gt => (k', v') :: mtInsert rest k v

/-- Memtable set: replace an existing key, or insert a new key when below
capacity; inserting a new key at capacity is an error (spec section 4.4).
Returns the previous entry, if any, like RedBlackTree::set. -/
def mtSet (m : MemTable) (k : Bytes) (v : EntryValue) :
    Except Unit (MemTable × Option EntryValue) :=
  match mtGet m k with
  | some prev => .ok (mtInsert m k v, some prev)
  | none =>
    if m.length < TREE_CAPACITY then .ok (mtInsert m k v, none)
    else .error ()

/-- The representation invariant of the embedded RedBlackTree: entries
strictly ascending by key (this is the tree's in-order traversal). -/
def mtSorted (m : MemTable) : Prop :=
  List.Pairwise (fun a b => bytesCmp a.1 b.1 = .lt) m

/-! ### Serialization

bincode with fixint encoding: Vec<u8> is a u64 little-endian length
followed by the bytes; the timestamp is 8 bytes (i64 nanoseconds). -/

/-- Little-endian fixed-width encoding of a natural (w bytes). -/
def natLE : Nat → Nat → List Nat
  | 0, _ => []
  | w + 1, n => n % 256 :: natLE w (n / 256)

/-- Read a w-byte little-endian natural from the front of a byte list,
returning the value and the remaining bytes; none when too short. -/
def readNatLE : Nat → List Nat → Option (Nat × List Nat)
  | 0, bs => some (0, bs)
  | _ + 1, [] => none
  | w + 1, b :: bs => (readNatLE w bs).map (fun p => (b + 256 * p.1, p.2))

/-- bincode fixint serialization of an Entry:
u64 key length, key bytes, u64 value length, value bytes, i64 timestamp. -/
def serializeEntry (e : Entry) : List Nat :=
  natLE 8 e.key.length ++ e.key ++
  natLE 8 e.value.data.length ++ e.value.data ++
  natLE 8 e.value.timestamp

/-- bincode deserialization of one Entry from the front of a byte list;
returns the entry and the number of bytes consumed. A declared length
that exceeds the available bytes is a deserialization error. -/
def deserializeEntry (bs : List Nat) : Option (Entry × Nat) :=
  match readNatLE 8 bs with
  | none => none
  | some (klen, r1) =>
    if klen ≤ r1.length then
      match readNatLE 8 (r1.drop klen) with
      | none => none
      | some (vlen, r3) =>
        if vlen ≤ r3.length then
          match readNatLE 8 (r3.drop vlen) with
          | none => none
          | some (ts, _) =>
            some (⟨r1.take klen, ⟨r3.take vlen, ts⟩⟩, 24 + klen + vlen)
        else none
    else none

/-! ### WAL (write_to_wal / read_memtable_from_wal_file) -/

/-- Padded size of a WAL record of serialized size s:
s + PAGE_SIZE - s % PAGE_SIZE, exactly as computed in write_to_wal. -/
def walPad (s : Nat) : Nat := s + PAGE_SIZE - s % PAGE_SIZE

/-- Overwrite bytes of a file at an offset (DmaFile::write_at); holes are
zero-filled. From a fresh WAL the offset always equals the file length,
making every write an append. -/
def writeAt (file : List Nat) (offset : Nat) (buf : List Nat) : List Nat :=
  file.take offset ++ List.replicate (offset - file.length) 0 ++ buf ++
    file.drop (offset + buf.length)

/-- WAL file state: its bytes and the current end offset. -/
structure WalState where
  bytes : List Nat
  offset : Nat
deriving DecidableEq, Repr

/-- A fresh (just created) WAL file. -/
def freshWal : WalState := ⟨[], 0⟩

/-- write_to_wal from lsm_tree.rs: serialize the entry into the prefix of
a buffer of the padded size (the DMA buffer tail is not read back by
recovery; it is modelled as zeros), write it at the current offset, and
advance the offset by the padded size. -/
def write_to_wal (w : WalState) (e : Entry) : WalState :=
  let enc := serializeEntry e
  let padded := walPad enc.length
  let buf := enc ++ List.replicate (padded - enc.length) 0
  ⟨writeAt w.bytes w.offset buf, w.offset + padded⟩

/-- Append a sequence of entries to a fresh WAL via write_to_wal. -/
def writeAllToWal (es : List Entry) : WalState :=
  es.foldl write_to_wal freshWal

/-- The recovery walk of read_memtable_from_wal_file: at each position try
to deserialize one entry (inserting it into the memtable on success, and
propagating a memtable capacity error), then advance the cursor to the
next PAGE_SIZE boundary. -/
def walWalk (buf : List Nat) (pos : Nat) (m : MemTable) :
    Except Unit MemTable :=
  if _h : pos < buf.length then
    match deserializeEntry (buf.drop pos) with
    | some (e, consumed) =>
      match mtSet m e.key e.value with
      | .error err => .error err
      | .ok (m', _) =>
        walWalk buf
          (pos + consumed + PAGE_SIZE - (pos + consumed) % PAGE_SIZE) m'
    | none => walWalk buf (pos + PAGE_SIZE - pos % PAGE_SIZE) m
  else .ok m
termination_by buf.length - pos
decreasing_by
  · have h1 : (pos + consumed) % PAGE_SIZE < PAGE_SIZE :=
      Nat.mod_lt _ (by decide)
    omega
  · have h1 : pos % PAGE_SIZE < PAGE_SIZE := Nat.mod_lt _ (by decide)
    omega

/-- read_memtable_from_wal_file from lsm_tree.rs: walk the WAL bytes from
position 0 into a fresh memtable. -/
def read_memtable_from_wal_file (buf : List Nat) : Except Unit MemTable :=
  walWalk buf 0 []

/-- The bytes one write_to_wal call adds to the file: the serialized
entry padded with zeros to the padded size. -/
def walBlock (e : Entry) : List Nat :=
  serializeEntry e ++
    List.replicate (walPad (serializeEntry e).length -
      (serializeEntry e).length) 0

/-- The bytes of a fresh WAL after appending a sequence of entries. -/
def walAll (es : List Entry) : List Nat := (es.map walBlock).flatten

/-- The sequence of memtable sets the recovery walk performs, as a
stand-alone fold (capacity errors propagate). -/
def foldSets : MemTable → List Entry → Except Unit MemTable
  | m, [] => .ok m
  | m, e :: es =>
    match mtSet m e.key e.value with
    | .error err => .error err
    | .ok (m', _) => foldSets m' es

/-- How many of the entries insert a key that the memtable does not yet
hold, walking the sequence in order. -/
def mtNewKeys : MemTable → List Entry → Nat
  | _, [] => 0
  | m, e :: es =>
    (if (mtGet m e.key).isSome then 0 else 1) +
      mtNewKeys (mtInsert m e.key e.value) es

/-- The last entry of the sequence whose key is k, if any. -/
def lastEntryFor (es : List Entry) (k : Bytes) : Option Entry :=
  es.reverse.find? (fun e => e.key = k)

/-- The number of distinct keys among a sequence of entries. -/
def countDistinctKeys (es : List Entry) : Nat :=
  (es.map Entry.key).dedup.length

/-! ### SSTables and binary search -/

/-- SSTable from lsm_tree.rs: an on-disk table identified by its numeric
index. The struct stores a recorded size (index file length divided by
the index-entry size); the embedding carries the data entries themselves,
with recorded size = entries.length, which is the on-disk invariant. -/
structure SSTable where
  index : Nat
  entries : List Entry
deriving DecidableEq, Repr

/-- Loop of LSMTree::binary_search. A probe at slot half models the index
file read plus the data file read; a probe outside the file fails
deserialization, which the source surfaces as Err, modelled as .error.
Fuel exhaustion is also .error; the totality theorem shows length + 1
fuel is never exhausted. -/
def bsLoop (es : List Entry) (key : Bytes) :
    Nat → Nat → Nat → Nat → Except Unit (Option Entry)
  | 0, _, _, _ => .error ()
  | fuel + 1, lind, hind, half =>
    if lind ≤ hind then
      match es.get? half with
      | none => .error ()
      | some value =>
        match bytesCmp value.key key with
        | .eq => .ok (some value)
        | .lt =>
          if half = 0 ∨ half = es.length then .ok none
          else bsLoop es key fuel (half + 1) hind ((hind + (half + 1)) / 2)
        | .gt =>
          if half = 0 ∨ half = es.length then .ok none
          else
            bsLoop es key fuel lind (max half 1 - 1)
              ((max half 1 - 1 + lind) / 2)
    else .ok none

/-- LSMTree::binary_search: half starts at n / 2, hind at the u64
computation n - 1 (which wraps when n = 0), lind at 0. -/
def binary_search (es : List Entry) (key : Bytes) :
    Except Unit (Option Entry) :=
  bsLoop es key (es.length + 1) 0 (u64sub1 es.length) (es.length / 2)

/-! ### LSM tree state and operations -/

/-- The mutable state of an LSMTree (lsm_tree.rs struct LSMTree), minus
the I/O handles: active and flushing memtables, the SSTable list sorted
by index, the two index counters, and the WAL file state. -/
structure TreeState where
  activeMemtable : MemTable
  flushMemtable : Option MemTable
  sstables : List SSTable
  writeSstableIndex : Nat
  memtableIndex : Nat
  wal : WalState
deriving DecidableEq, Repr

/-- sstable_indices from lsm_tree.rs. -/
def sstable_indices (st : TreeState) : List Nat :=
  st.sstables.map SSTable.index

/-- memtable_full from lsm_tree.rs. -/
def memtable_full (st : TreeState) : Bool :=
  st.activeMemtable.length = TREE_CAPACITY

/-- SSTable scan of get_entry: iterate the list newest (last, highest
index) to oldest and binary-search each; the list is passed already
reversed. -/
def sstableLookup : List SSTable → Bytes → Except Unit (Option EntryValue)
  | [], _ => .ok none
  | t :: rest, k =>
    match binary_search t.entries k with
    | .error e => .error e
    | .ok (some entry) => .ok (some entry.value)
    | .ok none => sstableLookup rest k

/-- get_entry from lsm_tree.rs: active memtable, then the flushing
memtable, then the SSTables newest to oldest. -/
def get_entry (st : TreeState) (k : Bytes) :
    Except Unit (Option EntryValue) :=
  match mtGet st.activeMemtable k with
  | some r => .ok (some r)
  | none =>
    match st.flushMemtable.bind (fun t => mtGet t k) with
    | some r => .ok (some r)
    | none => sstableLookup st.sstables.reverse k

/-- get from lsm_tree.rs: get_entry mapped to the raw value data. It
performs no tombstone filtering. -/
def get (st : TreeState) (k : Bytes) : Except Unit (Option Bytes) :=
  match get_entry st k with
  | .error e => .error e
  | .ok r => .ok (r.map EntryValue.data)

/-- set from lsm_tree.rs, single-task semantics: the source busy-yields
while the memtable is full (awaiting a concurrent flush), which a pure
single-task model renders as an error precondition; then it inserts into
the active memtable and appends to the WAL. The detached background
flush spawned when the insert fills the memtable is a separate task and
is not part of this state transition. -/
def set (st : TreeState) (k : Bytes) (v : Bytes) (ts : Nat) :
    Except Unit (TreeState × Option EntryValue) :=
  if memtable_full st then .error ()
  else
    match mtSet st.activeMemtable k ⟨v, ts⟩ with
    | .error e => .error e
    | .ok (m', prev) =>
      .ok ({ st with activeMemtable := m',
                     wal := write_to_wal st.wal ⟨k, ⟨v, ts⟩⟩ }, prev)

/-- delete from lsm_tree.rs: set with the TOMBSTONE (empty) value. -/
def deleteKey (st : TreeState) (k : Bytes) (ts : Nat) :
    Except Unit (TreeState × Option EntryValue) :=
  set st k TOMBSTONE ts

/-- flush from lsm_tree.rs, single-task semantics: the wait for a
concurrent flush is rendered as the identity on states that have one
(theorems assume none is in flight). An empty active memtable is a no-op.
Otherwise the active memtable is streamed, in ascending key order, into a
new SSTable appended to the list; the WAL is rotated (memtable index
advanced by 2, fresh WAL file) and write_sstable_index advances by 2.
The flushing slot is occupied during the flush and empty again when it
returns. -/
def flush (st : TreeState) : TreeState :=
  if st.flushMemtable.isSome then st
  else if st.activeMemtable.length = 0 then st
  else
    let entries := st.activeMemtable.map (fun kv => Entry.mk kv.1 kv.2)
    { st with
      activeMemtable := [],
      flushMemtable := none,
      memtableIndex := st.memtableIndex + 2,
      wal := freshWal,
      sstables := st.sstables ++ [⟨st.writeSstableIndex, entries⟩],
      writeSstableIndex := st.writeSstableIndex + 2 }

/-! ### Compaction -/

/-- Pop a maximal element (per CompactionItem order) from the heap,
returning it and the remaining items: std BinaryHeap::pop. Ties cannot
arise in compact because slot indices are distinct. -/
def heapPopMax : List CompactionItem →
    Option (CompactionItem × List CompactionItem)
  | [] => none
  | x :: xs =>
    match heapPopMax xs with
    | none => some (x, [])
    | some (m, rest) =>
      if compactionItemCmp x m = .gt then some (x, xs)
      else some (m, x :: rest)

/-- Take the next entry from source slot i (read_next_entry): the head of
the remaining entries of that source, which it consumes; an exhausted
source yields none (the read error that compact ignores). -/
def takeFrom (sources : List (List Entry)) (i : Nat) :
    Option Entry × List (List Entry) :=
  match sources.get? i with
  | some (e :: rest) => (some e, sources.set i rest)
  | _ => (none, sources)

/-- Merge loop of compact: pop the top item, peek at the next, write the
current entry unless the next has the same key or (with
remove_tombstones) its value is the tombstone, then refill the heap from
the source just popped. Fuel is the total number of entries plus one,
which the caller supplies; every entry enters the heap exactly once, so
the fuel is never exhausted. -/
def mergeLoop (rt : Bool) :
    Nat → List (List Entry) → List CompactionItem → List Entry
  | 0, _, _ => []
  | fuel + 1, sources, heap =>
    match heapPopMax heap with
    | none => []
    | some (current, rest) =>
      let shouldWrite :=
        (match heapPopMax rest with
         | some (nxt, _) => decide (nxt.entry.key ≠ current.entry.key)
         | none => true) &&
        (!rt || decide (current.entry.value.data ≠ TOMBSTONE))
      let refilled := takeFrom sources current.index
      let heap' :=
        match refilled.1 with
        | some e => CompactionItem.mk e current.index :: rest
        | none => rest
      let tail := mergeLoop rt fuel refilled.2 heap'
      if shouldWrite then current.entry :: tail else tail

/-- Seed heap of compact: the first entry of each source, tagged with its
slot index (empty sources are skipped). -/
def seedHeap (sources : List (List Entry)) : List CompactionItem :=
  sources.enum.filterMap (fun p => p.2.head?.map (fun e => ⟨e, p.1⟩))

/-- The k-way merge of compact over the listed sources (each the entry
list of one SSTable, in the order of indices_to_compact). -/
def compactMerge (sources : List (List Entry)) (rt : Bool) : List Entry :=
  mergeLoop rt ((sources.map List.length).sum + 1)
    (sources.map (List.drop 1)) (seedHeap sources)

/-- Insertion into an index-sorted SSTable list. -/
def insertByIndex (t : SSTable) : List SSTable → List SSTable
  | [] => [t]
  | u :: us =>
    if t.index ≤ u.index then t :: u :: us else u :: insertByIndex t us

/-- sort_unstable_by_key(|t| t.index), as an insertion sort. -/
def sortByIndex (l : List SSTable) : List SSTable :=
  l.foldr insertByIndex []

/-- compact from lsm_tree.rs, restricted to its effect on the tree state:
merge the listed SSTables into the output index, drop the inputs from the
SSTable list, add (output_index, items_written) and sort by index. Opening
a listed index with no SSTable is an I/O error, modelled as none. The
intent file, renames and deletes act on the file system only and leave
the published tree state unchanged. -/
def compact (st : TreeState) (indicesToCompact : List Nat)
    (outputIndex : Nat) (removeTombstones : Bool) : Option TreeState :=
  let srcTables :=
    indicesToCompact.map (fun i => st.sstables.find? (fun t => t.index = i))
  if srcTables.any Option.isNone then none
  else
    let sources := srcTables.filterMap (Option.map SSTable.entries)
    let merged := compactMerge sources removeTombstones
    let kept :=
      st.sstables.filter (fun t => !(indicesToCompact.contains t.index))
    some { st with
           sstables := sortByIndex (kept ++ [⟨outputIndex, merged⟩]) }

/-! ### WAL-file reconciliation at open_or_create -/

/-- The error kinds of the repository's error enum that recovery could
surface (error.rs; spec section 7). -/
inductive RecoveryError
  | corruption
  | io
deriving DecidableEq, Repr

/-- Outcome of the WAL-file reconciliation match in open_or_create. -/
inductive OpenWalOutcome
  | opened (walIndex : Nat)
  | openedAfterRecovery (flushedIndex adoptedIndex : Nat)
  | failed (e : RecoveryError)
  | panicked (msg : String)
deriving DecidableEq, Repr

/-- The match on the number of .memtable files in open_or_create
(wal_indices is sorted ascending): 0 files opens WAL index 0; 1 file
adopts that index; 2 files flush the smaller (unflushed) index to its
SSTable and adopt the larger; more than 2 files hit the panic arm. -/
def walFileDecision (walIndices : List Nat) : OpenWalOutcome :=
  match walIndices with
  | [] => .opened 0
  | [w] => .opened w
  | [w1, w2] => .openedAfterRecovery w1 w2
  | _ => .panicked "Cannot have more than 2 WAL files"

/-! ### Ring placement (dbeel_client/src/lib.rs) -/

/-- Shard from dbeel_client: a ring entry, the hash of the node address
string together with the (opaque, here numbered) socket address. -/
structure Shard where
  hash : Nat
  address : Nat
deriving DecidableEq, Repr

/-- Iterator::position(|s| s.hash >= hash) over the ring. -/
def findPosition (h : Nat) : List Shard → Option Nat
  | [] => none
  | s :: rest =>
    if h ≤ s.hash then some 0 else (findPosition h rest).map (· + 1)

/-- The starting ring position of send_sharded_request:
position(|s| s.hash >= hash).unwrap_or(0). -/
def startPos (ring : List Shard) (h : Nat) : Nat :=
  (findPosition h ring).getD 0

/-- The replica-collection loop of send_sharded_request: for i in 0..N,
index = (position + i) % ring length, breaking when i > 0 and the walk
has wrapped back to the starting position, else pushing that address. -/
def placeLoop (ring : List Shard) (pos : Nat) : Nat → Nat → List Nat
  | _, 0 => []
  | i, r + 1 =>
    let index := (pos + i) % ring.length
    if i ≠ 0 ∧ index = pos then []
    else (ring.getD index ⟨0, 0⟩).address :: placeLoop ring pos (i + 1) r

/-- The address list send_sharded_request fans the request out to. -/
def send_sharded_request (ring : List Shard) (replicationFactor : Nat)
    (h : Nat) : List Nat :=
  placeLoop ring (startPos ring h) 0 replicationFactor

/-! ### Concrete states used by counterexamples and witnesses -/

/-- An empty, freshly created tree. -/
def emptyTree : TreeState := ⟨[], none, [], 0, 0, freshWal⟩

/-- Entry with key 0 (sorted sample data). -/
def entA : Entry := ⟨[0], ⟨[10], 1⟩⟩

/-- Entry with key 1 (sorted sample data). -/
def entB : Entry := ⟨[1], ⟨[11], 2⟩⟩

/-- Entry with key 2 (sorted sample data). -/
def entC : Entry := ⟨[2], ⟨[12], 3⟩⟩

/-- Entry with key 3 (sorted sample data). -/
def entD : Entry := ⟨[3], ⟨[13], 4⟩⟩

/-- A four-entry SSTable content, ascending distinct keys. -/
def table4 : List Entry := [entA, entB, entC, entD]

/-- A tree with an SSTable at index 0 holding key 1 and no memtable
content: the "older SSTables contain k" scenario. -/
def c1State : TreeState := ⟨[], none, [⟨0, [⟨[1], ⟨[9], 1⟩⟩]⟩], 2, 2, freshWal⟩

/-- c1State after delete of key 1 at timestamp 7. -/
def c1After : TreeState :=
  match deleteKey c1State [1] 7 with
  | .ok p => p.1
  | .error _ => c1State

/-- A tree holding keys 0 and 1 in SSTable 0 and keys 2 and 3 in
SSTable 2, with empty memtables. -/
def c2Before : TreeState :=
  ⟨[], none, [⟨0, [entA, entB]⟩, ⟨2, [entC, entD]⟩], 4, 4, freshWal⟩

/-- c2Before after compact([0, 2], 3, remove_tombstones = false). -/
def c2After : TreeState := (compact c2Before [0, 2] 3 false).getD c2Before

/-- A heap item from the newer source (slot 1) with the newer
timestamp. -/
def c3ItemNewer : CompactionItem := ⟨⟨[5], ⟨[1], 20⟩⟩, 1⟩

/-- A heap item from the older source (slot 0) with the older timestamp
and the same key. -/
def c3ItemOlder : CompactionItem := ⟨⟨[5], ⟨[2], 10⟩⟩, 0⟩

/-- emptyTree after a successful set of key 1 to value 2 at timestamp 5. -/
def c4After : TreeState :=
  match set emptyTree [1] [2] 5 with
  | .ok p => p.1
  | .error _ => emptyTree

/-- A tree with one entry in the active memtable and no flush in
flight. -/
def c5State : TreeState := ⟨[([4], ⟨[5], 3⟩)], none, [], 0, 0, freshWal⟩

/-- Two records on the same key; the round-trip must keep the second. -/
def c7Entries : List Entry := [⟨[1], ⟨[2], 1⟩⟩, ⟨[1], ⟨[3], 2⟩⟩]

/-- A two-node ring with hashes 5 and 9. -/
def c9Ring : List Shard := [⟨5, 100⟩, ⟨9, 200⟩]

/-- A lone tombstone entry. -/
def c10Tomb : Entry := ⟨[7], ⟨[], 1⟩⟩

/-- A tree whose single SSTable holds only a tombstone. -/
def c10State : TreeState := ⟨[], none, [⟨0, [c10Tomb]⟩], 2, 2, freshWal⟩

/-! ## Decidable equality for Except results -/

instance exceptDecEq {ε α : Type} [DecidableEq ε] [DecidableEq α] :
    DecidableEq (Except ε α)
  | .error a, .error b =>
    if h : a = b then .isTrue (by rw [h])
    else .isFalse (fun hc => h (Except.error.inj hc))
  | .error _, .ok _ => .isFalse (fun hc => Except.noConfusion hc)
  | .ok _, .error _ => .isFalse (fun hc => Except.noConfusion hc)
  | .ok a, .ok b =>
    if h : a = b then .isTrue (by rw [h])
    else .isFalse (fun hc => h (Except.ok.inj hc))

/-! ## Basic comparison lemmas -/

theorem natCmp_eq_iff (a b : Nat) : natCmp a b = .eq ↔ a = b := by
  unfold natCmp
  by_cases h1 : a < b
  · simp [h1]; omega
  · by_cases h2 : a = b <;> simp [h1, h2]

theorem natCmp_lt_iff (a b : Nat) : natCmp a b = .lt ↔ a < b := by
  unfold natCmp
  by_cases h1 : a < b
  · simp [h1]
  · by_cases h2 : a = b <;> simp [h1, h2]

theorem natCmp_gt_iff (a b : Nat) : natCmp a b = .gt ↔ b < a := by
  unfold natCmp
  by_cases h1 : a < b
  · simp [h1]; omega
  · by_cases h2 : a = b
    · simp [h1, h2]
    · simp [h1, h2]; omega

theorem natCmp_self (a : Nat) : natCmp a a = .eq := (natCmp_eq_iff a a).mpr rfl

theorem bytesCmp_eq_iff : ∀ a b : Bytes, bytesCmp a b = .eq ↔ a = b
  | [], [] => by simp [bytesCmp]
  | [], _ :: _ => by simp [bytesCmp]
  | _ :: _, [] => by simp [bytesCmp]
  | a :: as, b :: bs => by
    simp only [bytesCmp]
    cases h : natCmp a b with
    | lt =>
      have hab : a ≠ b := by
        have := (natCmp_lt_iff a b).mp h; omega
      simp [Ordering.then, hab]
    | eq =>
      have hab : a = b := (natCmp_eq_iff a b).mp h
      simp [Ordering.then, hab, bytesCmp_eq_iff as bs]
    | gt =>
      have hab : a ≠ b := by
        have := (natCmp_gt_iff a b).mp h; omega
      simp [Ordering.then, hab]

theorem bytesCmp_self (a : Bytes) : bytesCmp a a = .eq :=
  (bytesCmp_eq_iff a a).mpr rfl

/-! ## Memtable lemmas -/

theorem mtGet_insert_self (m : MemTable) (k : Bytes) (v : EntryValue) :
    mtGet (mtInsert m k v) k = some v := by
  induction m with
  | nil => simp [mtInsert, mtGet]
  | cons hd tl ih =>
    obtain ⟨k', v'⟩ := hd
    simp only [mtInsert]
    cases h : bytesCmp k k' with
    | lt => simp [mtGet]
    | eq => simp [mtGet]
    | gt =>
      have hk : k ≠ k' := by
        intro he; rw [he, bytesCmp_self] at h; exact absurd h (by simp)
      simp [mtGet, hk, ih]

theorem mtGet_insert_ne (m : MemTable) (k k2 : Bytes) (v : EntryValue)
    (hne : k2 ≠ k) : mtGet (mtInsert m k v) k2 = mtGet m k2 := by
  induction m with
  | nil => simp [mtInsert, mtGet, hne]
  | cons hd tl ih =>
    obtain ⟨k', v'⟩ := hd
    simp only [mtInsert]
    cases h : bytesCmp k k' with
    | lt => simp [mtGet, hne]
    | eq =>
      have hk : k = k' := (bytesCmp_eq_iff k k').mp h
      subst hk
      simp [mtGet, hne]
    | gt => simp [mtGet, hne, ih]

theorem mtSet_ok_memtable {m : MemTable} {k : Bytes} {v : EntryValue}
    {m' : MemTable} {prev : Option EntryValue}
    (h : mtSet m k v = .ok (m', prev)) : m' = mtInsert m k v := by
  unfold mtSet at h
  split at h
  · injection h with h1
    exact (congrArg Prod.fst h1).symm
  · split at h
    · injection h with h1
      exact (congrArg Prod.fst h1).symm
    · exact Except.noConfusion h

/-! ## LSM tree operation lemmas -/

theorem set_ok_active {st : TreeState} {k v : Bytes} {ts : Nat}
    {st' : TreeState} {prev : Option EntryValue}
    (h : set st k v ts = .ok (st', prev)) :
    st'.activeMemtable = mtInsert st.activeMemtable k ⟨v, ts⟩ := by
  unfold set at h
  split at h
  · exact Except.noConfusion h
  · cases hm : mtSet st.activeMemtable k ⟨v, ts⟩ with
    | error e => rw [hm] at h; exact Except.noConfusion h
    | ok p =>
      rw [hm] at h
      injection h with h1
      have hfst := congrArg Prod.fst h1
      have hm' := mtSet_ok_memtable hm
      simp at hfst
      rw [← hfst, hm']

theorem get_entry_of_active {st : TreeState} {k : Bytes} {v : EntryValue}
    (h : mtGet st.activeMemtable k = some v) :
    get_entry st k = .ok (some v) := by
  unfold get_entry
  rw [h]

theorem get_of_active {st : TreeState} {k : Bytes} {v : EntryValue}
    (h : mtGet st.activeMemtable k = some v) :
    get st k = .ok (some v.data) := by
  unfold get
  rw [get_entry_of_active h]
  rfl

/-! ## Claim C4: single-task read-your-writes -/

/-- C4: for every key k and value v, after a successful set(k, v) returns
and with no other interleaved operation on k, get(k) returns v. Confirmed:
set inserts (k, v) into the active memtable, and get consults the active
memtable first. -/
theorem C4_read_your_writes (st st' : TreeState) (k v : Bytes) (ts : Nat)
    (prev : Option EntryValue) (h : set st k v ts = .ok (st', prev)) :
    get st' k = .ok (some v) := by
  have ha := set_ok_active h
  have hg : mtGet st'.activeMemtable k = some ⟨v, ts⟩ := by
    rw [ha]; exact mtGet_insert_self _ _ _
  exact get_of_active hg

/-- C4 witness: a concrete successful set on the empty tree followed by a
get of the same key. -/
theorem C4_witness : set emptyTree [1] [2] 5 = .ok (c4After, none) ∧
    get c4After [1] = .ok (some [2]) :=
  ⟨rfl, C4_read_your_writes emptyTree c4After [1] [2] 5 none rfl⟩

/-! ## Claim C1: tombstone handling of get after delete -/

/-- C1 counterexample: on a tree whose SSTable 0 holds key 1, after
delete of key 1 the claim asserts get returns NotFound (None); the code
returns Some of the empty (tombstone) value — get does not map the
tombstone to not-found. -/
theorem C1_counterexample :
    deleteKey c1State [1] 7 = .ok (c1After, none) ∧
    get c1After [1] = .ok (some []) ∧ get c1After [1] ≠ .ok none := by
  refine ⟨rfl, rfl, fun hc => ?_⟩
  have hEq : get c1After [1] = .ok (some []) := rfl
  exact Option.noConfusion (Except.ok.inj (hEq.symm.trans hc))

/-- C1 (amended): after delete(k) returns and with no later set on k,
get(k) returns Some of the TOMBSTONE (empty) value — the tombstone in
the active memtable shadows any entry for k in older SSTables but is not
mapped to not-found — and get_entry returns the tombstone entry itself. -/
theorem C1_amended (st st' : TreeState) (k : Bytes) (ts : Nat)
    (prev : Option EntryValue) (h : deleteKey st k ts = .ok (st', prev)) :
    get_entry st' k = .ok (some ⟨TOMBSTONE, ts⟩) ∧
    get st' k = .ok (some TOMBSTONE) := by
  have h' : set st k TOMBSTONE ts = .ok (st', prev) := h
  have ha := set_ok_active h'
  have hg : mtGet st'.activeMemtable k = some ⟨TOMBSTONE, ts⟩ := by
    rw [ha]; exact mtGet_insert_self _ _ _
  exact ⟨get_entry_of_active hg, get_of_active hg⟩

/-- C1 witness: the amended claim at the concrete delete of the
counterexample state. -/
theorem C1_witness :
    get_entry c1After [1] = .ok (some ⟨TOMBSTONE, 7⟩) ∧
    get c1After [1] = .ok (some TOMBSTONE) :=
  C1_amended c1State c1After [1] 7 none rfl

/-! ## Claim C5: flush postcondition -/

/-- C5: after flush() returns, the active memtable has length 0; if the
active memtable was non-empty when flush began, sstable_indices has grown
by exactly one entry; and flush on an empty active memtable is a no-op.
Confirmed (single task; no flush already in flight). -/
theorem C5_flush (st : TreeState) (h : st.flushMemtable = none) :
    (flush st).activeMemtable.length = 0 ∧
    (st.activeMemtable.length ≠ 0 →
      (sstable_indices (flush st)).length =
        (sstable_indices st).length + 1) ∧
    (st.activeMemtable.length = 0 → flush st = st) := by
  by_cases hlen : st.activeMemtable.length = 0
  · simp [flush, h, hlen]
  · simp [flush, h, hlen, sstable_indices]

/-- C5 witness: flush of a concrete tree with a one-entry active
memtable. -/
theorem C5_witness :
    (flush c5State).activeMemtable.length = 0 ∧
    (c5State.activeMemtable.length ≠ 0 →
      (sstable_indices (flush c5State)).length =
        (sstable_indices c5State).length + 1) ∧
    (c5State.activeMemtable.length = 0 → flush c5State = c5State) :=
  C5_flush c5State (by decide)

/-! ## Claim C3: compaction heap order -/

/-- C3 counterexample: two heap items with equal keys where the one from
the newer source (slot index 1) carries the newer timestamp. The claim
predicts it is popped first (compares .gt against the other); the code
compares entries first — reversed, so the older timestamp wins — and the
comparison yields .lt: the older, lower-index item is popped first. -/
theorem C3_counterexample :
    c3ItemNewer.entry.key = c3ItemOlder.entry.key ∧
    c3ItemOlder.index < c3ItemNewer.index ∧
    compactionItemCmp c3ItemNewer c3ItemOlder ≠ .gt ∧
    compactionItemCmp c3ItemNewer c3ItemOlder = .lt := by
  refine ⟨by decide, by decide, by decide, by decide⟩

/-- C3 (amended): the heap pops by (key ascending, timestamp ascending,
slot index ascending): for equal keys the item with the older timestamp
is popped first, and the source slot index breaks ties only when both key
and timestamp are equal, lower slot first. (compactionItemCmp a b = .gt
means a is popped before b, BinaryHeap being a max-heap.) -/
theorem C3_amended (a b : CompactionItem)
    (hk : a.entry.key = b.entry.key) :
    (a.entry.value.timestamp < b.entry.value.timestamp →
      compactionItemCmp a b = .gt) ∧
    (a.entry.value.timestamp = b.entry.value.timestamp →
      a.index < b.index → compactionItemCmp a b = .gt) := by
  unfold compactionItemCmp entryCmp
  rw [← hk, bytesCmp_self]
  constructor
  · intro hts
    have h1 : natCmp b.entry.value.timestamp a.entry.value.timestamp = .gt :=
      (natCmp_gt_iff _ _).mpr hts
    simp [Ordering.then, h1]
  · intro hts hidx
    have h1 : natCmp b.entry.value.timestamp a.entry.value.timestamp = .eq :=
      (natCmp_eq_iff _ _).mpr hts.symm
    have h2 : natCmp b.index a.index = .gt := (natCmp_gt_iff _ _).mpr hidx
    simp [Ordering.then, h1, h2]

/-- C3 witness: the amended order at concrete items — older timestamp
popped first, and lower slot popped first on full ties. -/
theorem C3_witness :
    compactionItemCmp ⟨⟨[5], ⟨[1], 10⟩⟩, 0⟩ ⟨⟨[5], ⟨[9], 20⟩⟩, 1⟩ = .gt ∧
    compactionItemCmp ⟨⟨[5], ⟨[1], 10⟩⟩, 0⟩ ⟨⟨[5], ⟨[9], 10⟩⟩, 1⟩ = .gt :=
  ⟨(C3_amended ⟨⟨[5], ⟨[1], 10⟩⟩, 0⟩ ⟨⟨[5], ⟨[9], 20⟩⟩, 1⟩ rfl).1 (by decide),
   (C3_amended ⟨⟨[5], ⟨[1], 10⟩⟩, 0⟩ ⟨⟨[5], ⟨[9], 10⟩⟩, 1⟩ rfl).2 rfl
     (by decide)⟩

/-! ## Claim C8: more than two WAL files -/

/-- C8 counterexample: with three WAL files present, open_or_create does
not surface a Corruption (or any) error result to its caller — it hits
the panic arm. -/
theorem C8_counterexample :
    walFileDecision [0, 2, 4] =
      .panicked "Cannot have more than 2 WAL files" ∧
    walFileDecision [0, 2, 4] ≠ .failed .corruption ∧
    walFileDecision [0, 2, 4] ≠ .failed .io := by
  refine ⟨by decide, by decide, by decide⟩

/-- C8 (amended): when the tree directory contains more than two WAL
(.memtable) files, open_or_create fails fatally by panicking with
"Cannot have more than 2 WAL files" (it neither continues silently nor
returns a Corruption error result). -/
theorem C8_amended (ws : List Nat) (h : 2 < ws.length) :
    walFileDecision ws = .panicked "Cannot have more than 2 WAL files" := by
  match ws with
  | [] => simp at h
  | [_] => simp at h
  | [_, _] => simp at h
  | _ :: _ :: _ :: _ => rfl

/-- C8 witness: the amended claim at four WAL files. -/
theorem C8_witness :
    walFileDecision [0, 2, 4, 6] =
      .panicked "Cannot have more than 2 WAL files" :=
  C8_amended [0, 2, 4, 6] (by decide)

/-! ## Binary search: totality for nonempty tables (C10) and the
search miss (C6) -/

theorem u64sub1_of_pos (n : Nat) (h1 : 1 ≤ n) (h2 : n ≤ U64) :
    u64sub1 n = n - 1 := by
  unfold u64sub1 U64 at *
  omega

theorem u64sub1_zero : u64sub1 0 = U64 - 1 := by
  unfold u64sub1 U64
  omega

theorem bsLoop_ok (es : List Entry) (key : Bytes) :
    ∀ fuel lind hind half,
      hind < es.length →
      (lind ≤ hind → lind ≤ half ∧ half ≤ hind) →
      1 ≤ fuel → hind + 2 - lind ≤ fuel →
      ∃ r, bsLoop es key fuel lind hind half = .ok r := by
  intro fuel
  induction fuel with
  | zero => intro lind hind half _ _ h1 _; omega
  | succ f ih =>
    intro lind hind half hhind hinv _ hfuel
    by_cases hlh : lind ≤ hind
    · obtain ⟨hl, hh⟩ := hinv hlh
      have hhalf : half < es.length := lt_of_le_of_lt hh hhind
      obtain ⟨value, hval⟩ : ∃ v, es[half]? = some v :=
        ⟨es[half], List.getElem?_eq_getElem hhalf⟩
      cases hcmp : bytesCmp value.key key with
      | eq => exact ⟨some value, by simp [bsLoop, hlh, hval, hcmp]⟩
      | lt =>
        by_cases hbr : half = 0 ∨ half = es.length
        · exact ⟨none, by simp [bsLoop, hlh, hval, hcmp, hbr]⟩
        · have hinv2 : half + 1 ≤ hind →
              half + 1 ≤ (hind + (half + 1)) / 2 ∧
                (hind + (half + 1)) / 2 ≤ hind := by
            intro hle; omega
          have hf1 : 1 ≤ f := by omega
          have hfb : hind + 2 - (half + 1) ≤ f := by omega
          obtain ⟨r, hr⟩ :=
            ih (half + 1) hind ((hind + (half + 1)) / 2) hhind hinv2 hf1 hfb
          exact ⟨r, by simp [bsLoop, hlh, hval, hcmp, hbr, hr]⟩
      | gt =>
        by_cases hbr : half = 0 ∨ half = es.length
        · exact ⟨none, by simp [bsLoop, hlh, hval, hcmp, hbr]⟩
        · have hpos : 1 ≤ half := by omega
          have hmax : max half 1 = half := Nat.max_eq_left hpos
          have hhind2 : half - 1 < es.length := by omega
          have hinv2 : lind ≤ half - 1 →
              lind ≤ (half - 1 + lind) / 2 ∧
                (half - 1 + lind) / 2 ≤ half - 1 := by
            intro hle; omega
          have hf1 : 1 ≤ f := by omega
          have hfb : half - 1 + 2 - lind ≤ f := by omega
          obtain ⟨r, hr⟩ :=
            ih lind (half - 1) ((half - 1 + lind) / 2) hhind2 hinv2 hf1 hfb
          exact ⟨r, by simp [bsLoop, hlh, hval, hcmp, hbr, hmax, hr]⟩
    · exact ⟨none, by simp [bsLoop, hlh]⟩

theorem binary_search_total (es : List Entry) (key : Bytes)
    (h1 : 1 ≤ es.length) (h2 : es.length ≤ U64) :
    ∃ r, binary_search es key = .ok r := by
  unfold binary_search
  rw [u64sub1_of_pos es.length h1 h2]
  apply bsLoop_ok es key (es.length + 1) 0 (es.length - 1) (es.length / 2)
  · omega
  · intro _; omega
  · omega
  · omega

theorem binary_search_nil (key : Bytes) :
    binary_search ([] : List Entry) key = .error () := by
  have hgt : 0 ≤ u64sub1 0 := Nat.zero_le _
  simp [binary_search, bsLoop]

/-! ## Claim C6: the binary search misses a present key -/

/-- C6: on a four-entry SSTable with ascending distinct keys, searching
the key at position 1 returns None although the entry is present: the
first probe at slot 2 compares Greater (hind becomes 1, half becomes 0),
the probe at slot 0 compares Less (lind becomes 1), and the loop then
breaks on half = 0 without ever probing slot 1. The claim that the
search returns the entry whenever one with the searched key exists is
violated by the code. -/
theorem C6_binary_search_miss :
    table4.map Entry.key = [[0], [1], [2], [3]] ∧
    entB ∈ table4 ∧ entB.key = [1] ∧
    binary_search table4 [1] = .ok none := by
  refine ⟨by decide, by decide, by decide, by decide⟩

/-! ## Claim C10: totality of the index arithmetic -/

/-- C10: for every recorded size n >= 1, hind = n - 1 is computed without
underflow and every index probe of binary_search stays in bounds — the
search always returns Ok (probing out of bounds or running past the
iteration bound would be an error in the model). For n = 0 the u64
subtraction wraps to 2^64 - 1 before any key comparison and the search
on an empty table fails; and compact with remove_tombstones can publish
exactly such a zero-size SSTable when every merged entry is a dropped
tombstone. -/
theorem C10_zero_size_sstable :
    (∀ n : Nat, 1 ≤ n → n ≤ U64 → u64sub1 n = n - 1) ∧
    (∀ (es : List Entry) (key : Bytes), 1 ≤ es.length → es.length ≤ U64 →
      ∃ r, binary_search es key = .ok r) ∧
    u64sub1 0 = U64 - 1 ∧
    (∀ key : Bytes, binary_search ([] : List Entry) key = .error ()) ∧
    (compact c10State [0] 1 true).map
        (fun st => st.sstables.map (fun t => (t.index, t.entries.length))) =
      some [(1, 0)] := by
  exact ⟨u64sub1_of_pos, binary_search_total, u64sub1_zero,
    binary_search_nil, by decide⟩

/-- C10 witness: the universally quantified parts at concrete inputs. -/
theorem C10_witness :
    u64sub1 3 = 2 ∧ (∃ r, binary_search [entA] [0] = .ok r) := by
  exact ⟨C10_zero_size_sstable.1 3 (by decide) (by decide),
    C10_zero_size_sstable.2.1 [entA] [0] (by decide) (by decide)⟩

/-! ## Claim C2: compaction does not preserve get visibility -/

/-- C2: on the concrete tree with SSTable 0 = keys 0 and 1 and
SSTable 2 = keys 2 and 3 (no tombstone anywhere, remove_tombstones =
false), get of key 1 answers Some before compact([0,2], 3, false) and
None after: the merged four-entry table puts key 1 at position 1, which
the binary search misses. The claim that compaction preserves get for
every key is right about the intended behaviour — compact itself merges
correctly — but the code's binary search slip breaks it, so the claim
fails on the code as a consequence of that bug. -/
theorem C2_compaction_visibility_bug :
    get c2Before [1] = .ok (some [11]) ∧
    compact c2Before [0, 2] 3 false = some c2After ∧
    c2After.sstables = [⟨3, [entA, entB, entC, entD]⟩] ∧
    get c2After [1] = .ok none := by
  refine ⟨by decide, by decide, by decide, by decide⟩

/-! ## Ring placement lemmas (C9) -/

theorem listGetD_eq {α : Type} (l : List α) (i : Nat) (d : α)
    (h : i < l.length) : l.getD i d = l[i] := by
  induction l generalizing i with
  | nil => simp at h
  | cons a t ih =>
    cases i with
    | zero => rfl
    | succ j =>
      have hj : j < t.length := by simp at h; omega
      simpa using ih j hj

theorem nodup_addr {ring : List Shard}
    (hnd : (ring.map Shard.address).Nodup) {q1 q2 : Nat}
    (h1 : q1 < ring.length) (h2 : q2 < ring.length)
    (he : (ring.getD q1 ⟨0, 0⟩).address = (ring.getD q2 ⟨0, 0⟩).address) :
    q1 = q2 := by
  have h1m : q1 < (ring.map Shard.address).length := by simpa using h1
  have h2m : q2 < (ring.map Shard.address).length := by simpa using h2
  have hg : (ring.map Shard.address)[q1] = (ring.map Shard.address)[q2] := by
    rw [List.getElem_map, List.getElem_map]
    rw [listGetD_eq ring q1 _ h1, listGetD_eq ring q2 _ h2] at he
    exact he
  exact (hnd.getElem_inj_iff).mp hg

theorem findPosition_some {h : Nat} :
    ∀ {ring : List Shard} {p : Nat}, findPosition h ring = some p →
      p < ring.length ∧ h ≤ (ring.getD p ⟨0, 0⟩).hash ∧
        ∀ j < p, (ring.getD j ⟨0, 0⟩).hash < h := by
  intro ring
  induction ring with
  | nil => intro p hp; exact absurd hp (by simp [findPosition])
  | cons s rest ih =>
    intro p hp
    unfold findPosition at hp
    by_cases hs : h ≤ s.hash
    · rw [if_pos hs] at hp
      injection hp with hp0
      subst hp0
      refine ⟨by simp, hs, ?_⟩
      intro j hj; omega
    · rw [if_neg hs] at hp
      obtain ⟨q, hq, hpq⟩ := Option.map_eq_some'.mp hp
      subst hpq
      obtain ⟨hq1, hq2, hq3⟩ := ih hq
      refine ⟨by simpa using hq1, hq2, ?_⟩
      intro j hj
      match j with
      | 0 => simpa using by omega
      | j' + 1 => exact hq3 j' (by omega)

theorem findPosition_none {h : Nat} :
    ∀ {ring : List Shard}, findPosition h ring = none →
      ∀ j < ring.length, (ring.getD j ⟨0, 0⟩).hash < h := by
  intro ring
  induction ring with
  | nil => intro _ j hj; simp at hj
  | cons s rest ih =>
    intro hp j hj
    unfold findPosition at hp
    by_cases hs : h ≤ s.hash
    · rw [if_pos hs] at hp; exact Option.noConfusion hp
    · rw [if_neg hs] at hp
      have hrest : findPosition h rest = none := by
        cases hr : findPosition h rest with
        | none => rfl
        | some q => rw [hr] at hp; exact Option.noConfusion hp
      match j with
      | 0 => simpa using by omega
      | j' + 1 => exact ih hrest j' (by simpa using hj)

theorem startPos_lt (ring : List Shard) (h : Nat) (hne : ring ≠ []) :
    startPos ring h < ring.length := by
  have hlen : 0 < ring.length := List.length_pos.mpr hne
  unfold startPos
  cases hp : findPosition h ring with
  | none => simpa using hlen
  | some p => simpa using (findPosition_some hp).1

theorem mod_shift_inj {len pos j1 j2 : Nat} (hpos : pos < len)
    (h1 : j1 < len) (h2 : j2 < len)
    (heq : (pos + j1) % len = (pos + j2) % len) : j1 = j2 := by
  rcases Nat.lt_or_ge (pos + j1) len with hc1 | hc1 <;>
    rcases Nat.lt_or_ge (pos + j2) len with hc2 | hc2
  · rw [Nat.mod_eq_of_lt hc1, Nat.mod_eq_of_lt hc2] at heq; omega
  · rw [Nat.mod_eq_of_lt hc1, Nat.mod_eq_sub_mod hc2,
      Nat.mod_eq_of_lt (by omega)] at heq
    omega
  · rw [Nat.mod_eq_sub_mod hc1, Nat.mod_eq_of_lt (by omega),
      Nat.mod_eq_of_lt hc2] at heq
    omega
  · rw [Nat.mod_eq_sub_mod hc1, Nat.mod_eq_of_lt (by omega),
      Nat.mod_eq_sub_mod hc2, Nat.mod_eq_of_lt (by omega)] at heq
    omega

theorem placeLoop_eq (ring : List Shard) (pos : Nat)
    (hpos : pos < ring.length) :
    ∀ r i, 1 ≤ i → i ≤ ring.length →
      placeLoop ring pos i r =
        (List.range' i (min r (ring.length - i))).map
          (fun j => (ring.getD ((pos + j) % ring.length) ⟨0, 0⟩).address) := by
  intro r
  induction r with
  | zero => intro i _ _; simp [placeLoop]
  | succ r ih =>
    intro i hi1 hi2
    by_cases hil : i = ring.length
    · subst hil
      have hidx : (pos + ring.length) % ring.length = pos := by
        rw [Nat.add_mod_right]
        exact Nat.mod_eq_of_lt hpos
      have hbreak : ring.length ≠ 0 ∧
          (pos + ring.length) % ring.length = pos := ⟨by omega, hidx⟩
      simp [placeLoop, hbreak, hidx, hi1]
    · have hlt : i < ring.length := by omega
      have hidx : (pos + i) % ring.length ≠ pos := by
        intro heq
        rcases Nat.lt_or_ge (pos + i) ring.length with hc | hc
        · rw [Nat.mod_eq_of_lt hc] at heq; omega
        · rw [Nat.mod_eq_sub_mod hc, Nat.mod_eq_of_lt (by omega)] at heq
          omega
      obtain ⟨m, hm⟩ : ∃ m, min (r + 1) (ring.length - i) = m + 1 :=
        ⟨min (r + 1) (ring.length - i) - 1, by omega⟩
      have hm2 : min r (ring.length - (i + 1)) = m := by omega
      have hstep : placeLoop ring pos i (r + 1) =
          (ring.getD ((pos + i) % ring.length) ⟨0, 0⟩).address ::
            placeLoop ring pos (i + 1) r := by
        simp [placeLoop, hidx]
      rw [hstep, hm, List.range'_succ, List.map_cons,
        ih (i + 1) (by omega) (by omega), hm2]

theorem send_sharded_eq (ring : List Shard) (N h : Nat) (hne : ring ≠ []) :
    send_sharded_request ring N h =
      (List.range' 0 (min N ring.length)).map
        (fun j =>
          (ring.getD ((startPos ring h + j) % ring.length) ⟨0, 0⟩).address) := by
  have hlen : 0 < ring.length := List.length_pos.mpr hne
  have hpos := startPos_lt ring h hne
  unfold send_sharded_request
  cases N with
  | zero => simp [placeLoop]
  | succ r =>
    obtain ⟨m, hm⟩ : ∃ m, min (r + 1) ring.length = m + 1 :=
      ⟨min (r + 1) ring.length - 1, by omega⟩
    have hm2 : min r (ring.length - 1) = m := by omega
    rw [hm, List.range'_succ]
    simp only [placeLoop]
    rw [placeLoop_eq ring (startPos ring h) hpos r 1 (by omega) (by omega)]
    simp [hm2]

/-! ## Claim C9: ring coverage -/

/-- C9: for every key hash h, the placement starts at the smallest ring
position whose hash is at least h (index 0 when none qualifies) and
returns exactly min(N, ring_size) distinct addresses, N being the
replication factor. Confirmed for a non-empty ring whose addresses are
pairwise distinct (an empty ring would divide by zero in the source, and
duplicate ring addresses would obviously be returned twice). -/
theorem C9_ring_coverage (ring : List Shard) (N h : Nat)
    (hne : ring ≠ []) (hnd : (ring.map Shard.address).Nodup) :
    (send_sharded_request ring N h).length = min N ring.length ∧
    (send_sharded_request ring N h).Nodup ∧
    (∀ p, findPosition h ring = some p →
      startPos ring h = p ∧ p < ring.length ∧
        h ≤ (ring.getD p ⟨0, 0⟩).hash ∧
        ∀ j < p, (ring.getD j ⟨0, 0⟩).hash < h) ∧
    (findPosition h ring = none →
      startPos ring h = 0 ∧
        ∀ j < ring.length, (ring.getD j ⟨0, 0⟩).hash < h) := by
  have hlen : 0 < ring.length := List.length_pos.mpr hne
  have hpos := startPos_lt ring h hne
  refine ⟨?_, ?_, ?_, ?_⟩
  · rw [send_sharded_eq ring N h hne]
    simp
  · rw [send_sharded_eq ring N h hne]
    apply List.Nodup.map_on ?_ (List.nodup_range' 0 (min N ring.length))
    intro j1 hj1 j2 hj2 hf
    have hb1 : j1 < ring.length := by
      have := List.mem_range'_1.mp hj1; omega
    have hb2 : j2 < ring.length := by
      have := List.mem_range'_1.mp hj2; omega
    have hq1 : (startPos ring h + j1) % ring.length < ring.length :=
      Nat.mod_lt _ hlen
    have hq2 : (startPos ring h + j2) % ring.length < ring.length :=
      Nat.mod_lt _ hlen
    exact mod_shift_inj hpos hb1 hb2 (nodup_addr hnd hq1 hq2 hf)
  · intro p hp
    obtain ⟨h1, h2, h3⟩ := findPosition_some hp
    exact ⟨by simp [startPos, hp], h1, h2, h3⟩
  · intro hp
    exact ⟨by simp [startPos, hp], findPosition_none hp⟩

/-- C9 witness: the coverage facts at a concrete two-node ring with
replication factor 3. -/
theorem C9_witness :
    (send_sharded_request c9Ring 3 7).length = min 3 c9Ring.length ∧
    (send_sharded_request c9Ring 3 7).Nodup :=
  ⟨(C9_ring_coverage c9Ring 3 7 (by decide) (by decide)).1,
   (C9_ring_coverage c9Ring 3 7 (by decide) (by decide)).2.1⟩

/-! ## Serialization round trip (C7) -/

theorem natLE_length : ∀ (w n : Nat), (natLE w n).length = w
  | 0, _ => rfl
  | w + 1, n => by simp [natLE, natLE_length w (n / 256)]

theorem readNat_natLE : ∀ (w n : Nat) (rest : List Nat),
    readNatLE w (natLE w n ++ rest) = some (n % 256 ^ w, rest) := by
  intro w
  induction w with
  | zero => intro n rest; simp [natLE, readNatLE, Nat.mod_one]
  | succ w ih =>
    intro n rest
    rw [show natLE (w + 1) n ++ rest =
      (n % 256) :: (natLE w (n / 256) ++ rest) from rfl]
    rw [show readNatLE (w + 1) ((n % 256) :: (natLE w (n / 256) ++ rest)) =
      (readNatLE w (natLE w (n / 256) ++ rest)).map
        (fun p => (n % 256 + 256 * p.1, p.2)) from rfl]
    rw [ih (n / 256) rest]
    simp only [Option.map_some']
    have hmod : n % 256 ^ (w + 1) = n % 256 + 256 * (n / 256 % 256 ^ w) := by
      rw [pow_succ']
      exact Nat.mod_mul
    rw [hmod]

theorem serializeEntry_length (e : Entry) :
    (serializeEntry e).length =
      24 + e.key.length + e.value.data.length := by
  simp [serializeEntry, natLE_length]
  omega

theorem pow256_eight : (256 : Nat) ^ 8 = U64 := by decide

theorem deserialize_serialize (e : Entry) (rest : List Nat)
    (hk : e.key.length < U64) (hv : e.value.data.length < U64)
    (ht : e.value.timestamp < U64) :
    deserializeEntry (serializeEntry e ++ rest) =
      some (e, 24 + e.key.length + e.value.data.length) := by
  have hk' : e.key.length % 256 ^ 8 = e.key.length := by
    rw [pow256_eight]; exact Nat.mod_eq_of_lt hk
  have hv' : e.value.data.length % 256 ^ 8 = e.value.data.length := by
    rw [pow256_eight]; exact Nat.mod_eq_of_lt hv
  have ht' : e.value.timestamp % 256 ^ 8 = e.value.timestamp := by
    rw [pow256_eight]; exact Nat.mod_eq_of_lt ht
  simp only [serializeEntry, List.append_assoc, deserializeEntry,
    readNat_natLE, hk', hv', ht', List.take_left, List.drop_left,
    List.length_append, Nat.le_add_right, if_true]

/-! ## WAL layout lemmas (C7) -/

theorem walPad_ge (s : Nat) : s ≤ walPad s := by
  unfold walPad PAGE_SIZE
  omega

theorem walPad_pos (s : Nat) : 0 < walPad s := by
  unfold walPad PAGE_SIZE
  omega

theorem walPad_mod (s : Nat) : walPad s % PAGE_SIZE = 0 := by
  unfold walPad PAGE_SIZE
  omega

theorem walBlock_length (e : Entry) :
    (walBlock e).length = walPad (serializeEntry e).length := by
  have := walPad_ge (serializeEntry e).length
  simp [walBlock]
  omega

theorem writeAt_end (file buf : List Nat) :
    writeAt file file.length buf = file ++ buf := by
  simp [writeAt, List.drop_eq_nil_iff]

theorem walAll_cons (e : Entry) (es : List Entry) :
    walAll (e :: es) = walBlock e ++ walAll es := by
  simp [walAll]

theorem writeAll_spec : ∀ (es : List Entry) (w : WalState),
    w.offset = w.bytes.length →
    (es.foldl write_to_wal w).bytes = w.bytes ++ walAll es ∧
      (es.foldl write_to_wal w).offset = (w.bytes ++ walAll es).length := by
  intro es
  induction es with
  | nil => intro w hw; simp [walAll, hw]
  | cons e es ih =>
    intro w hw
    have hstep : write_to_wal w e =
        ⟨w.bytes ++ walBlock e, (w.bytes ++ walBlock e).length⟩ := by
      have hge := walPad_ge (serializeEntry e).length
      simp only [write_to_wal]
      rw [hw, writeAt_end]
      simp [walBlock]
      omega
    rw [List.foldl_cons, hstep]
    obtain ⟨h1, h2⟩ :=
      ih ⟨w.bytes ++ walBlock e, (w.bytes ++ walBlock e).length⟩ rfl
    constructor
    · rw [h1, walAll_cons, List.append_assoc]
    · rw [h2, walAll_cons, List.append_assoc]

theorem writeAllToWal_bytes (es : List Entry) :
    (writeAllToWal es).bytes = walAll es := by
  have := (writeAll_spec es freshWal rfl).1
  simpa [freshWal] using this

/-! ## The recovery walk over a well-formed WAL (C7) -/

theorem walWalk_walAll :
    ∀ (es : List Entry) (buf : List Nat) (pos : Nat) (m : MemTable),
      pos % PAGE_SIZE = 0 → pos ≤ buf.length →
      buf.drop pos = walAll es →
      (∀ e ∈ es, e.key.length < U64 ∧ e.value.data.length < U64 ∧
        e.value.timestamp < U64) →
      walWalk buf pos m = foldSets m es := by
  intro es
  induction es with
  | nil =>
    intro buf pos m _ hle hdrop _
    have hlen : buf.length ≤ pos := by
      have := List.drop_eq_nil_iff.mp (by simpa [walAll] using hdrop)
      omega
    unfold walWalk
    rw [dif_neg (by omega)]
    rfl
  | cons e es ih =>
    intro buf pos m hmod hle hdrop hsz
    obtain ⟨hk, hv, ht⟩ := hsz e (by simp)
    have hsz' : ∀ x ∈ es, x.key.length < U64 ∧ x.value.data.length < U64 ∧
        x.value.timestamp < U64 := fun x hx => hsz x (by simp [hx])
    rw [walAll_cons] at hdrop
    have hblen : (walBlock e).length = walPad (serializeEntry e).length :=
      walBlock_length e
    have hdroplen : buf.length - pos =
        (walBlock e).length + (walAll es).length := by
      have := congrArg List.length hdrop
      simpa using this
    have hpadpos : 0 < walPad (serializeEntry e).length :=
      walPad_pos _
    have hlt : pos < buf.length := by omega
    have hdes : deserializeEntry (buf.drop pos) =
        some (e, 24 + e.key.length + e.value.data.length) := by
      rw [hdrop, walBlock, List.append_assoc]
      exact deserialize_serialize e _ hk hv ht
    have hconsumed : 24 + e.key.length + e.value.data.length =
        (serializeEntry e).length := (serializeEntry_length e).symm
    unfold walWalk
    rw [dif_pos hlt]
    simp only [hdes]
    have hposeq : pos + (24 + e.key.length + e.value.data.length) +
        PAGE_SIZE - (pos + (24 + e.key.length + e.value.data.length)) %
          PAGE_SIZE = pos + walPad (serializeEntry e).length := by
      rw [hconsumed]
      unfold walPad PAGE_SIZE at *
      omega
    cases hset : mtSet m e.key e.value with
    | error err =>
      simp only [foldSets, hset]
    | ok p =>
      obtain ⟨m1, prev⟩ := p
      simp only [foldSets, hset]
      rw [hposeq]
      apply ih buf (pos + walPad (serializeEntry e).length) m1
      · unfold walPad PAGE_SIZE at *
        omega
      · omega
      · rw [← List.drop_drop, hdrop, ← hblen, List.drop_left]
      · exact hsz'

/-! ## Order lemmas for the memtable invariant (C7) -/

theorem natCmp_swap (a b : Nat) : natCmp a b = .gt ↔ natCmp b a = .lt := by
  rw [natCmp_gt_iff, natCmp_lt_iff]

theorem bytesCmp_swap : ∀ a b : Bytes, bytesCmp a b = .gt ↔ bytesCmp b a = .lt
  | [], [] => by simp [bytesCmp]
  | [], _ :: _ => by simp [bytesCmp]
  | _ :: _, [] => by simp [bytesCmp]
  | a :: as, b :: bs => by
    simp only [bytesCmp]
    cases h : natCmp a b with
    | lt =>
      have h2 : natCmp b a = .gt := (natCmp_swap b a).mpr h
      simp [Ordering.then, h2]
    | eq =>
      have hab : a = b := (natCmp_eq_iff a b).mp h
      subst hab
      simp [Ordering.then, natCmp_self, bytesCmp_swap as bs]
    | gt =>
      have h2 : natCmp b a = .lt := (natCmp_swap a b).mp h
      simp [Ordering.then, h2]

theorem bytesCmp_trans_lt : ∀ a b c : Bytes,
    bytesCmp a b = .lt → bytesCmp b c = .lt → bytesCmp a c = .lt := by
  intro a
  induction a with
  | nil =>
    intro b c h1 h2
    match c with
    | [] =>
      exact absurd h2 (by
        cases b <;> simp [bytesCmp])
    | _ :: _ => rfl
  | cons x xs ih =>
    intro b c h1 h2
    match b with
    | [] => exact absurd h1 (by simp [bytesCmp])
    | y :: ys =>
      match c with
      | [] => exact absurd h2 (by simp [bytesCmp])
      | z :: zs =>
        simp only [bytesCmp] at h1 h2 ⊢
        cases hxy : natCmp x y with
        | gt => rw [hxy] at h1; exact absurd h1 (by simp [Ordering.then])
        | lt =>
          rw [hxy] at h1
          cases hyz : natCmp y z with
          | gt => rw [hyz] at h2; exact absurd h2 (by simp [Ordering.then])
          | lt =>
            have : natCmp x z = .lt := by
              rw [natCmp_lt_iff] at hxy hyz ⊢; omega
            simp [Ordering.then, this]
          | eq =>
            have hyz' : y = z := (natCmp_eq_iff y z).mp hyz
            subst hyz'
            simp [Ordering.then, hxy]
        | eq =>
          have hxy' : x = y := (natCmp_eq_iff x y).mp hxy
          subst hxy'
          rw [hxy] at h1
          cases hyz : natCmp x z with
          | gt => rw [hyz] at h2; exact absurd h2 (by simp [Ordering.then])
          | lt => simp [Ordering.then, hyz]
          | eq =>
            rw [hyz] at h2
            simp only [Ordering.then] at h1 h2 ⊢
            exact ih ys zs h1 h2

theorem mtGet_some_mem :
    ∀ (m : MemTable) (k : Bytes) (v : EntryValue),
      mtGet m k = some v → (k, v) ∈ m := by
  intro m
  induction m with
  | nil => intro k v h; exact absurd h (by simp [mtGet])
  | cons hd t ih =>
    obtain ⟨k', v'⟩ := hd
    intro k v h
    unfold mtGet at h
    by_cases hk : k = k'
    · rw [if_pos hk] at h
      injection h with h
      subst hk h
      exact List.mem_cons_self _ _
    · rw [if_neg hk] at h
      exact List.mem_cons_of_mem _ (ih k v h)

theorem mem_mtInsert :
    ∀ (m : MemTable) (k : Bytes) (v : EntryValue) (x : Bytes × EntryValue),
      x ∈ mtInsert m k v → x = (k, v) ∨ x ∈ m := by
  intro m
  induction m with
  | nil => intro k v x h; simpa [mtInsert] using h
  | cons hd t ih =>
    obtain ⟨k', v'⟩ := hd
    intro k v x h
    unfold mtInsert at h
    cases hc : bytesCmp k k' <;> rw [hc] at h
    · rcases List.mem_cons.mp h with h1 | h1
      · exact Or.inl h1
      · exact Or.inr h1
    · rcases List.mem_cons.mp h with h1 | h1
      · exact Or.inl h1
      · exact Or.inr (List.mem_cons_of_mem _ h1)
    · rcases List.mem_cons.mp h with h1 | h1
      · exact Or.inr (by simp [h1])
      · rcases ih k v x h1 with h2 | h2
        · exact Or.inl h2
        · exact Or.inr (List.mem_cons_of_mem _ h2)

theorem mtSorted_insert :
    ∀ (m : MemTable) (k : Bytes) (v : EntryValue),
      mtSorted m → mtSorted (mtInsert m k v) := by
  intro m
  induction m with
  | nil => intro k v _; simp [mtInsert, mtSorted]
  | cons hd t ih =>
    obtain ⟨k', v'⟩ := hd
    intro k v hs
    rw [mtSorted, List.pairwise_cons] at hs
    obtain ⟨hrel, ht⟩ := hs
    unfold mtInsert
    cases hc : bytesCmp k k'
    · rw [mtSorted, List.pairwise_cons]
      refine ⟨?_, ?_⟩
      · intro x hx
        rcases List.mem_cons.mp hx with h1 | h1
        · subst h1; exact hc
        · exact bytesCmp_trans_lt k k' x.1 hc (hrel x h1)
      · rw [List.pairwise_cons]
        exact ⟨hrel, ht⟩
    · have hk : k = k' := (bytesCmp_eq_iff k k').mp hc
      subst hk
      rw [mtSorted, List.pairwise_cons]
      exact ⟨hrel, ht⟩
    · rw [mtSorted, List.pairwise_cons]
      refine ⟨?_, ih k v ht⟩
      intro x hx
      rcases mem_mtInsert t k v x hx with h1 | h1
      · subst h1
        exact (bytesCmp_swap k k').mp hc
      · exact hrel x h1

theorem mtInsert_length_mem :
    ∀ (m : MemTable) (k : Bytes) (v w : EntryValue),
      mtSorted m → mtGet m k = some w →
      (mtInsert m k v).length = m.length := by
  intro m
  induction m with
  | nil => intro k v w _ h; exact absurd h (by simp [mtGet])
  | cons hd t ih =>
    obtain ⟨k', v'⟩ := hd
    intro k v w hs hget
    rw [mtSorted, List.pairwise_cons] at hs
    obtain ⟨hrel, ht⟩ := hs
    by_cases hk : k = k'
    · subst hk
      simp [mtInsert, bytesCmp_self]
    · rw [show mtGet ((k', v') :: t) k = mtGet t k from by
        simp [mtGet, hk]] at hget
      cases hc : bytesCmp k k'
      · exfalso
        have hmem := mtGet_some_mem t k w hget
        have hlt : bytesCmp k' k = .lt := hrel (k, w) hmem
        have hgt : bytesCmp k k' = .gt := (bytesCmp_swap k k').mpr hlt
        rw [hc] at hgt
        exact Ordering.noConfusion hgt
      · exact absurd ((bytesCmp_eq_iff k k').mp hc) hk
      · simp [mtInsert, hc, ih k v w ht hget]

theorem mtInsert_length_new :
    ∀ (m : MemTable) (k : Bytes) (v : EntryValue),
      mtGet m k = none → (mtInsert m k v).length = m.length + 1 := by
  intro m
  induction m with
  | nil => intro k v _; simp [mtInsert]
  | cons hd t ih =>
    obtain ⟨k', v'⟩ := hd
    intro k v hget
    by_cases hk : k = k'
    · rw [show mtGet ((k', v') :: t) k = some v' from by
        simp [mtGet, hk]] at hget
      exact Option.noConfusion hget
    · rw [show mtGet ((k', v') :: t) k = mtGet t k from by
        simp [mtGet, hk]] at hget
      cases hc : bytesCmp k k'
      · simp [mtInsert, hc]
      · exact absurd ((bytesCmp_eq_iff k k').mp hc) hk
      · simp [mtInsert, hc, ih k v hget]

theorem mtGet_insert_isSome (m : MemTable) (k : Bytes) (v : EntryValue)
    (k2 : Bytes) :
    (mtGet (mtInsert m k v) k2).isSome = true ↔
      (k2 = k ∨ (mtGet m k2).isSome = true) := by
  by_cases hk : k2 = k
  · subst hk
    simp [mtGet_insert_self]
  · simp [mtGet_insert_ne m k k2 v hk, hk]

/-! ## Distinct-key counting (C7) -/

theorem filter_length_mono {p q : Bytes → Bool}
    (h : ∀ a, p a = true → q a = true) :
    ∀ l : List Bytes, (l.filter p).length ≤ (l.filter q).length := by
  intro l
  induction l with
  | nil => simp
  | cons a t ih =>
    cases hp : p a
    · cases hq : q a <;> simp [List.filter_cons, hp, hq] <;> omega
    · have hq := h a hp
      simp [List.filter_cons, hp, hq]
      omega

theorem filter_minus_one :
    ∀ (L : List Bytes), L.Nodup → ∀ (x : Bytes), x ∈ L →
      ∀ (p q : Bytes → Bool), p x = true →
      (∀ a, q a = true ↔ (¬ a = x ∧ p a = true)) →
      (L.filter q).length + 1 ≤ (L.filter p).length := by
  intro L
  induction L with
  | nil => intro _ x hx; exact absurd hx (by simp)
  | cons hd t ih =>
    intro hnd x hx p q hp hq
    rw [List.nodup_cons] at hnd
    obtain ⟨hht, hndt⟩ := hnd
    by_cases hxh : x = hd
    · subst hxh
      have hqx : q x = false := by
        cases hqv : q x
        · rfl
        · exact absurd ((hq x).mp hqv).1 (by simp)
      have hfeq : t.filter q = t.filter p := by
        apply List.filter_congr
        intro a ha
        have hne : ¬ a = x := fun he => hht (he ▸ ha)
        cases hqv : q a
        · cases hpv : p a
          · rfl
          · exact absurd ((hq a).mpr ⟨hne, hpv⟩) (by simp [hqv])
        · exact (((hq a).mp hqv).2).symm
      rw [List.filter_cons, List.filter_cons, if_neg (by simp [hqx]),
        if_pos hp, hfeq]
      simp
    · have hxt : x ∈ t := by
        rcases List.mem_cons.mp hx with h1 | h1
        · exact absurd h1 hxh
        · exact h1
      have hih := ih hndt x hxt p q hp hq
      cases hph : p hd
      · have hqh : q hd = false := by
          cases hqv : q hd
          · rfl
          · have := ((hq hd).mp hqv).2
            rw [hph] at this
            exact Bool.noConfusion this
        rw [List.filter_cons, List.filter_cons, if_neg (by simp [hqh]),
          if_neg (by simp [hph])]
        exact hih
      · have hqh : q hd = true :=
          (hq hd).mpr ⟨fun he => hxh he.symm, hph⟩
        rw [List.filter_cons, List.filter_cons, if_pos hqh, if_pos hph]
        simp only [List.length_cons]
        omega

theorem not_isSome_insert_mono (m : MemTable) (k0 : Bytes) (v : EntryValue)
    (a : Bytes) (ha : (!(mtGet (mtInsert m k0 v) a).isSome) = true) :
    (!(mtGet m a).isSome) = true := by
  rw [Bool.not_eq_true'] at ha ⊢
  by_contra hcon
  have h1 : (mtGet m a).isSome = true := by
    cases hgs : (mtGet m a).isSome
    · exact absurd hgs hcon
    · rfl
  have h2 := (mtGet_insert_isSome m k0 v a).mpr (Or.inr h1)
  rw [ha] at h2
  exact Bool.noConfusion h2

theorem not_isSome_insert_ne (m : MemTable) (k0 : Bytes) (v : EntryValue)
    (a : Bytes) (ha : (!(mtGet (mtInsert m k0 v) a).isSome) = true) :
    (decide (a ≠ k0) && !(mtGet m a).isSome) = true := by
  have hm := not_isSome_insert_mono m k0 v a ha
  have hne : a ≠ k0 := by
    intro he
    subst he
    rw [Bool.not_eq_true', mtGet_insert_self] at ha
    exact Bool.noConfusion ha
  simp [hne, hm]

theorem mtNewKeys_le :
    ∀ (es : List Entry) (m : MemTable),
      mtNewKeys m es ≤
        ((es.map Entry.key).dedup.filter
          (fun k => !(mtGet m k).isSome)).length := by
  intro es
  induction es with
  | nil => intro m; simp [mtNewKeys]
  | cons e es ih =>
    intro m
    have hchain : mtNewKeys (mtInsert m e.key e.value) es ≤
        ((es.map Entry.key).dedup.filter
          (fun k => !(mtGet m k).isSome)).length :=
      le_trans (ih (mtInsert m e.key e.value))
        (filter_length_mono (not_isSome_insert_mono m e.key e.value) _)
    by_cases hxm : (mtGet m e.key).isSome = true
    · have hnew : mtNewKeys m (e :: es) =
          mtNewKeys (mtInsert m e.key e.value) es := by
        simp [mtNewKeys, hxm]
      by_cases hmem : e.key ∈ es.map Entry.key
      · rw [List.map_cons, List.dedup_cons_of_mem hmem, hnew]
        exact hchain
      · rw [List.map_cons, List.dedup_cons_of_not_mem hmem, hnew]
        have hcx : (!(mtGet m e.key).isSome) = false := by simp [hxm]
        rw [List.filter_cons, if_neg (by simp [hcx])]
        exact hchain
    · have hnew : mtNewKeys m (e :: es) =
          1 + mtNewKeys (mtInsert m e.key e.value) es := by
        simp [mtNewKeys, hxm]
      have hpx : (!(mtGet m e.key).isSome) = true := by simp [hxm]
      by_cases hmem : e.key ∈ es.map Entry.key
      · rw [List.map_cons, List.dedup_cons_of_mem hmem, hnew]
        have hstep : mtNewKeys (mtInsert m e.key e.value) es ≤
            ((es.map Entry.key).dedup.filter
              (fun a => decide (a ≠ e.key) && !(mtGet m a).isSome)).length :=
          le_trans (ih (mtInsert m e.key e.value))
            (filter_length_mono (not_isSome_insert_ne m e.key e.value) _)
        have hminus := filter_minus_one (es.map Entry.key).dedup
          (List.nodup_dedup _) e.key (List.mem_dedup.mpr hmem)
          (fun k => !(mtGet m k).isSome)
          (fun a => decide (a ≠ e.key) && !(mtGet m a).isSome) hpx
          (by intro a; simp)
        omega
      · rw [List.map_cons, List.dedup_cons_of_not_mem hmem, hnew]
        rw [List.filter_cons, if_pos hpx]
        simp only [List.length_cons]
        omega

theorem foldSets_ok :
    ∀ (es : List Entry) (m : MemTable), mtSorted m →
      m.length + mtNewKeys m es ≤ TREE_CAPACITY →
      ∃ m', foldSets m es = .ok m' := by
  intro es
  induction es with
  | nil => intro m _ _; exact ⟨m, rfl⟩
  | cons e es ih =>
    intro m hs hcap
    by_cases hxm : (mtGet m e.key).isSome = true
    · obtain ⟨w, hw⟩ := Option.isSome_iff_exists.mp hxm
      have hset : mtSet m e.key e.value =
          .ok (mtInsert m e.key e.value, some w) := by
        unfold mtSet; rw [hw]
      have hnew : mtNewKeys m (e :: es) =
          mtNewKeys (mtInsert m e.key e.value) es := by
        simp [mtNewKeys, hxm]
      have hlen := mtInsert_length_mem m e.key e.value w hs hw
      obtain ⟨m', hm'⟩ := ih (mtInsert m e.key e.value)
        (mtSorted_insert m e.key e.value hs) (by rw [hlen]; omega)
      exact ⟨m', by simp only [foldSets, hset]; exact hm'⟩
    · have hnone : mtGet m e.key = none := by
        cases hg : mtGet m e.key
        · rfl
        · rw [hg] at hxm; simp at hxm
      have hnew : mtNewKeys m (e :: es) =
          1 + mtNewKeys (mtInsert m e.key e.value) es := by
        simp [mtNewKeys, hxm]
      have hltcap : m.length < TREE_CAPACITY := by omega
      have hset : mtSet m e.key e.value =
          .ok (mtInsert m e.key e.value, none) := by
        unfold mtSet; rw [hnone, if_pos hltcap]
      have hlen := mtInsert_length_new m e.key e.value hnone
      obtain ⟨m', hm'⟩ := ih (mtInsert m e.key e.value)
        (mtSorted_insert m e.key e.value hs) (by rw [hlen]; omega)
      exact ⟨m', by simp only [foldSets, hset]; exact hm'⟩

theorem lastEntryFor_cons (e : Entry) (es : List Entry) (k : Bytes) :
    lastEntryFor (e :: es) k =
      (lastEntryFor es k).or (if e.key = k then some e else none) := by
  unfold lastEntryFor
  rw [List.reverse_cons, List.find?_append]
  congr 1
  by_cases hk : e.key = k <;> simp [List.find?_cons, hk]

theorem foldSets_get :
    ∀ (es : List Entry) (m m' : MemTable), foldSets m es = .ok m' →
      ∀ k, mtGet m' k =
        ((lastEntryFor es k).map Entry.value).or (mtGet m k) := by
  intro es
  induction es with
  | nil =>
    intro m m' h k
    injection h with h
    subst h
    simp [lastEntryFor, Option.or]
  | cons e es ih =>
    intro m m' h k
    cases hset : mtSet m e.key e.value with
    | error err =>
      simp only [foldSets, hset] at h
      exact Except.noConfusion h
    | ok p =>
      obtain ⟨m1, prev⟩ := p
      simp only [foldSets, hset] at h
      have hm1 : m1 = mtInsert m e.key e.value := mtSet_ok_memtable hset
      subst hm1
      rw [lastEntryFor_cons]
      have hih := ih _ _ h k
      cases hlast : lastEntryFor es k with
      | some a =>
        rw [hlast] at hih
        simp [Option.or] at hih ⊢
        exact hih
      | none =>
        rw [hlast] at hih
        simp only [Option.map_none', Option.or] at hih
        by_cases hk : e.key = k
        · rw [hih, ← hk, mtGet_insert_self]
          simp [Option.or, hk]
        · rw [hih, mtGet_insert_ne m e.key k e.value (Ne.symm hk)]
          simp [Option.or, hk]

/-! ## Claim C7: WAL round trip -/

/-- C7: for every sequence of entries appended to a fresh WAL via
write_to_wal — each record occupying its serialized size rounded up to
the next PAGE_SIZE boundary, written at the current WAL offset which then
advances by the padded size — the recovery walk of
read_memtable_from_wal_file reconstructs a memtable mapping each written
key to the value and timestamp of its last appended entry. Confirmed
under the system invariant that one WAL holds at most TREE_CAPACITY
distinct keys (one WAL backs one memtable, whose set path enforces the
capacity) and that lengths and timestamps fit in u64. -/
theorem C7_wal_round_trip (es : List Entry)
    (hsz : ∀ e ∈ es, e.key.length < U64 ∧ e.value.data.length < U64 ∧
      e.value.timestamp < U64)
    (hcap : countDistinctKeys es ≤ TREE_CAPACITY) :
    ∃ m, read_memtable_from_wal_file (writeAllToWal es).bytes = .ok m ∧
      ∀ k, mtGet m k = (lastEntryFor es k).map Entry.value := by
  have hnewle : mtNewKeys [] es ≤ countDistinctKeys es := by
    have h1 := mtNewKeys_le es []
    have h2 : ((es.map Entry.key).dedup.filter
        (fun k => !(mtGet [] k).isSome)) = (es.map Entry.key).dedup := by
      apply List.filter_eq_self.mpr
      intro a _
      simp [mtGet]
    rw [h2] at h1
    exact h1
  obtain ⟨m', hm'⟩ := foldSets_ok es [] (by simp [mtSorted]) (by simp; omega)
  refine ⟨m', ?_, ?_⟩
  · unfold read_memtable_from_wal_file
    rw [writeAllToWal_bytes,
      walWalk_walAll es (walAll es) 0 [] (by simp) (by simp) (by simp) hsz]
    exact hm'
  · intro k
    have hfg := foldSets_get es [] m' hm' k
    rw [hfg]
    cases hlast : (lastEntryFor es k).map Entry.value <;>
      simp [mtGet, Option.or]

/-- C7 witness: the round trip at two concrete records on the same key;
the reconstructed memtable maps the key to the second value. -/
theorem C7_witness :
    ∃ m, read_memtable_from_wal_file (writeAllToWal c7Entries).bytes =
        .ok m ∧
      ∀ k, mtGet m k = (lastEntryFor c7Entries k).map Entry.value :=
  C7_wal_round_trip c7Entries (by decide) (by decide)

end Dbeel
